import Mathlib

/-!
Verification of the Memory Mend pattern codec.

This file gives a shallow embedding of the pattern codec of the
repository: the identifier hash (`simpleHash` / `hashMemory`), the
identifier/grid codec (`idToBinary`, `calculateGridSize`, `binaryToGrid`,
`gridToBinary`), the manual/optical decoder (`decodePattern`), the
diagonal stitch-path optimizer (`extractDiagonalLines`), the SVG exporter
(`generateSVGPrims`) and the pattern migrator (`needsMigration`).

Strings are modelled as `List Char` (JS `charCodeAt` = `Char.toNat`,
`String.fromCharCode` = `Char.ofNat`), JS numbers holding 32-bit results
as `Int` with an explicit `toInt32` wrap, and binary strings as
`List Bool` (`'1'` = `true`).
-/

/-- The 36-symbol alphabet `0-9A-Z` (`VALID_CHARS` in the decoder, and the
base-36 target alphabet of `hashMemory`). -/
def VALID_CHARS : List Char :=
  ['0','1','2','3','4','5','6','7','8','9',
   'A','B','C','D','E','F','G','H','I','J','K','L','M',
   'N','O','P','Q','R','S','T','U','V','W','X','Y','Z']

/-- `ID_LENGTH` from `hashUtils.ts`. -/
def ID_LENGTH : Nat := 6

/-- Least-significant-first base-`b` digits of `n`, with explicit fuel;
`jsToStringDigits` instantiates the fuel with `n` itself, which is always
enough since the digit count of `n` never exceeds `n`. -/
def toDigitsRev (b : Nat) : Nat → Nat → List Nat
  | 0, _ => []
  | fuel+1, n => if n = 0 then [] else n % b :: toDigitsRev b fuel (n / b)

/-- JS `Number.prototype.toString(b)` for a natural number, as the list of
its base-`b` digit values, most significant first (`[0]` for `0`). -/
def jsToStringDigits (b n : Nat) : List Nat :=
  if n = 0 then [0] else (toDigitsRev b n n).reverse

/-- JS `n.toString(2)` as a list of bits, most significant first. -/
def natBits (n : Nat) : List Bool :=
  (jsToStringDigits 2 n).map (fun d => decide (d = 1))

/-- JS `.padStart(7, '0')` on a bit string. -/
def padStart7 (l : List Bool) : List Bool :=
  List.replicate (7 - l.length) false ++ l

/-- `idToBinary` from `hashUtils.ts`: each character of the identifier is
converted to its code point's binary representation, left-padded to
7 bits, and the chunks are concatenated. -/
def idToBinary (id : List Char) : List Bool :=
  id.flatMap (fun c => padStart7 (natBits c.toNat))

/-- Ceiling of the square root of a natural number
(`Math.ceil(Math.sqrt(n))` for a natural argument). -/
def natCeilSqrt (n : Nat) : Nat :=
  if Nat.sqrt n * Nat.sqrt n = n then Nat.sqrt n else Nat.sqrt n + 1

/-- `calculateGridSize` from `hashUtils.ts`:
`Math.ceil(Math.sqrt(4 + idLength * 7))`. -/
def calculateGridSize (idLength : Nat) : Nat :=
  natCeilSqrt (4 + idLength * 7)

/-- The corner predicate used by `binaryToGrid` and `gridToBinary`. -/
def cornerCell (row col gridSize : Nat) : Prop :=
  (row = 0 ∧ col = 0) ∨ (row = 0 ∧ col = gridSize - 1) ∨
  (row = gridSize - 1 ∧ col = 0) ∨ (row = gridSize - 1 ∧ col = gridSize - 1)

instance (row col gridSize : Nat) : Decidable (cornerCell row col gridSize) := by
  unfold cornerCell; infer_instance

/-- `binaryToGrid` from `hashUtils.ts`: lays the bit string into a
`gridSize × gridSize` grid row-major, skipping the four corner cells
(which stay `false`); a running `bitIndex` is advanced only on data
cells, and cells beyond the bit string are `false`. -/
def binaryToGrid (binary : List Bool) (gridSize : Nat) : List (List Bool) :=
  ((List.range gridSize).foldl (fun (acc : List (List Bool) × Nat) (row : Nat) =>
    let inner := (List.range gridSize).foldl (fun (racc : List Bool × Nat) (col : Nat) =>
      if cornerCell row col gridSize then
        (racc.1 ++ [false], racc.2)
      else
        (racc.1 ++ [decide (racc.2 < binary.length) && binary.getD racc.2 false], racc.2 + 1))
      (([] : List Bool), acc.2)
    (acc.1 ++ [inner.1], inner.2)) (([] : List (List Bool)), 0)).1

/-- `gridToBinary` from `hashUtils.ts`: walks the grid row-major (each row
to its own length), skipping the four corner cells of the
`grid.length`-sized scheme, and concatenates the remaining cells. -/
def gridToBinary (grid : List (List Bool)) : List Bool :=
  (List.range grid.length).flatMap (fun row =>
    (List.range (grid.getD row []).length).flatMap (fun col =>
      if cornerCell row col grid.length then []
      else [(grid.getD row []).getD col false]))

/-- `parseInt(s, 2)` on a bit string (most significant bit first). -/
def bitsToNat (l : List Bool) : Nat :=
  l.foldl (fun acc b => 2 * acc + (if b then 1 else 0)) 0

/-- `decodePattern` from `routes/scan/manual/+page.svelte` (the version in
`routes/(flows)/scan/analyzing/+page.svelte` differs only in omitting the
redundant leading `'0'` before `parseInt`, which does not change the
parsed value): an empty grid decodes to `"******"`; otherwise the grid's
bit string is cut into six 7-bit chunks, and each chunk is decoded to a
character through its code point, with `'*'` for short, all-zero or
non-alphabet (after upper-casing) chunks. -/
def decodePattern (grid : List (List Bool)) : List Char :=
  let hasData := grid.any (fun row => row.any (fun cell => cell))
  if hasData = false then ['*','*','*','*','*','*']
  else
    let binary := gridToBinary grid
    (List.range 6).map (fun i =>
      let chunk := (binary.drop (i * 7)).take 7
      if chunk.length < 7 ∨ chunk = [false,false,false,false,false,false,false] then '*'
      else
        let paddedChunk := chunk ++ List.replicate (7 - chunk.length) false
        let asciiCode := bitsToNat (false :: paddedChunk)
        let char := Char.ofNat asciiCode
        if VALID_CHARS.contains char.toUpper then char else '*')

/-- The caller-side completeness check
(`patternId.includes('*')` in `routes/(flows)/scan/analyzing/+page.svelte`):
a decode is complete exactly when no wildcard appears. -/
def decodeComplete (grid : List (List Bool)) : Prop :=
  '*' ∉ decodePattern grid

/-- The `i`-th 7-bit chunk of a grid's bit string. -/
def chunkAt (grid : List (List Bool)) (i : Nat) : List Bool :=
  ((gridToBinary grid).drop (i * 7)).take 7

/-- The wildcard condition of claim C3 for position `i`: the chunk is
shorter than 7 bits, or all zeros, or its numeric value maps to a
character outside the alphabet under case-insensitive comparison. -/
def wildcardCond (grid : List (List Bool)) (i : Nat) : Prop :=
  (chunkAt grid i).length < 7 ∨ chunkAt grid i = List.replicate 7 false ∨
  (Char.ofNat (bitsToNat (chunkAt grid i))).toUpper ∉ VALID_CHARS

instance (grid : List (List Bool)) (i : Nat) : Decidable (wildcardCond grid i) := by
  unfold wildcardCond; infer_instance


/-- JS `ToInt32`: wrap an integer to the signed 32-bit range
`[-2^31, 2^31)` (the effect of `| 0`, `& `, `<<` result conversion). -/
def toInt32 (x : Int) : Int := (x + 2147483648) % 4294967296 - 2147483648

/-- One iteration of the `simpleHash` loop from `hashUtils.ts`:
`hash = ((hash << 5) - hash) + char; hash = hash & hash`.  The shift
result is 32-bit (`hash` is always already 32-bit when shifted, being the
output of the previous `& `), the subtraction and addition are exact, and
`hash & hash` converts the result to a 32-bit integer. -/
def jsHashStep (hash : Int) (char : Nat) : Int :=
  toInt32 (toInt32 (hash * 32) - hash + char)

/-- The accumulation step as the spec words it: `hash*31 + charCode`
wrapped to 32-bit signed arithmetic. -/
def specHashStep (hash : Int) (char : Nat) : Int :=
  toInt32 (hash * 31 + char)

/-- `simpleHash` from `hashUtils.ts` (including the final `Math.abs`). -/
def simpleHash (message : List Char) : Nat :=
  ((message.map Char.toNat).foldl jsHashStep 0).natAbs

/-- JS digit character for `toString(36)` (lowercase `0-9a-z`). -/
def jsDigitChar (d : Nat) : Char :=
  if d < 10 then Char.ofNat (48 + d) else Char.ofNat (87 + d)

/-- `hash.toString(36).toUpperCase().substring(0, ID_LENGTH).padEnd(ID_LENGTH, '0')`
from `hashMemory` in `hashUtils.ts`. -/
def hashToId (hash : Nat) : List Char :=
  let s := ((jsToStringDigits 36 hash).map jsDigitChar).map Char.toUpper
  let t := s.take ID_LENGTH
  t ++ List.replicate (ID_LENGTH - t.length) '0'

/-- The argument record of `hashMemory` (fields `title`, `text`, `images`;
`none` models a JS `undefined`/absent field). -/
structure HashMemoryArg where
  title : Option (List Char)
  text : Option (List Char)
  images : Option (List (List Char))

/-- Contribution of an optional string to `hashInput`: skipped when absent.
(A present empty string is JS-falsy and also skipped in the source, but
appending the empty string is the same as skipping it.) -/
def optStr : Option (List Char) → List Char
  | none => []
  | some s => s

/-- `hashMemory` from `hashUtils.ts`: concatenates title, text and the
first 500 characters of each image into `hashInput`, falls back to
`Date.now().toString()` (passed here as `now`) when that is empty, hashes
and formats the 6-character base-36 identifier. -/
def hashMemory (memory : HashMemoryArg) (now : List Char) : List Char :=
  let hashInput := optStr memory.title ++ optStr memory.text ++
    (match memory.images with
     | none => []
     | some imgs => imgs.flatMap (fun image => image.take 500))
  let hashInput2 := if hashInput = [] then now else hashInput
  hashToId (simpleHash hashInput2)

/-- The `Memory` record from `types/mend.ts` (fields used here; images is
the optional image list, there is no singular `image` field). -/
structure Memory where
  id : List Char
  title : Option (List Char)
  text : Option (List Char)
  images : Option (List (List Char))
  timestamp : Nat

/-- `PatternConfig` from `types/mend.ts`. -/
structure PatternConfig where
  gridSize : Nat
  cellSize : Nat
deriving DecidableEq

/-- `PatternData` from `types/mend.ts`; `id` is optional here because the
pattern migrator must handle legacy stored records that lack the field. -/
structure PatternData where
  grid : List (List Bool)
  id : Option (List Char)
  config : PatternConfig
deriving DecidableEq

/-- `DEFAULT_CELL_SIZE` from `patternGenerator.ts`. -/
def DEFAULT_CELL_SIZE : Nat := 20

/-- `generatePatternFromMemory` from `patternGenerator.ts`: it calls
`hashMemory({ text: memory.text, image: memory.image })`.  `hashMemory`
reads the fields `title`, `text` and `images` of its argument, so the
passed object populates only `text` (the `image` key is never read, and
`Memory` has no such field anyway), leaving `title` and `images` absent. -/
def generatePatternFromMemory (memory : Memory) (now : List Char) : PatternData :=
  let id := hashMemory { title := none, text := memory.text, images := none } now
  let binary := idToBinary id
  let gridSize := calculateGridSize ID_LENGTH
  let grid := binaryToGrid binary gridSize
  { grid := grid, id := some id,
    config := { gridSize := gridSize, cellSize := DEFAULT_CELL_SIZE } }

/-- JS truthiness test of `pattern.id` (`!pattern.id`): true when the field
is absent or the empty string. -/
def jsFalsyId : Option (List Char) → Bool
  | none => true
  | some s => s.isEmpty

/-- `needsMigration` from `patternMigration.ts`. -/
def needsMigration (pattern : PatternData) : Bool :=
  if jsFalsyId pattern.id then true
  else if pattern.grid.length ≠ pattern.config.gridSize then true
  else if pattern.config.gridSize = 16 ∨ pattern.config.gridSize = 8 then true
  else false


/-- Direction of a diagonal run (`'nw-se'` or `'ne-sw'` in
`diagonalOptimizer.ts`). -/
inductive DiagDir where
  | nwse : DiagDir
  | nesw : DiagDir
deriving DecidableEq, Repr

/-- Column step of each direction family (the row step is always `+1`). -/
def dirDc : DiagDir → Int
  | DiagDir.nwse => 1
  | DiagDir.nesw => -1

/-- `DiagonalLine` from `diagonalOptimizer.ts`. -/
structure DiagonalLine where
  startRow : Int
  startCol : Int
  endRow : Int
  endCol : Int
  direction : DiagDir
deriving DecidableEq, Repr

/-- `isValidStitch` from `diagonalOptimizer.ts`: in bounds of the
`grid.length`-sized square, not in the skip set, and a true cell.  The
skip set holds coordinate pairs (the source keys cells as `"row,col"`
strings, which is injective on pairs of naturals); out-of-bounds rows or
ragged short rows read as `undefined`, i.e. false. -/
def isValidStitch (grid : List (List Bool)) (skip : List (Nat × Nat))
    (row col : Int) : Bool :=
  if row < 0 ∨ (grid.length : Int) ≤ row ∨ col < 0 ∨ (grid.length : Int) ≤ col then false
  else if (row.toNat, col.toNat) ∈ skip then false
  else (grid.getD row.toNat []).getD col.toNat false

/-- Number of iterations of the run-extension while-loop of
`extractDiagonalLines`, starting at `(r, c)` with column step `dc`; the
fuel is instantiated with `grid.length`, which never truncates the loop
(each step moves one row down, see `runLen_lt_fuel`). -/
def runLen (grid : List (List Bool)) (skip : List (Nat × Nat)) (dc : Int) :
    Nat → Int → Int → Nat
  | 0, _, _ => 0
  | fuel+1, r, c =>
      if isValidStitch grid skip (r + 1) (c + dc) then
        runLen grid skip dc fuel (r + 1) (c + dc) + 1
      else 0

/-- The cells a run marks visited: the start plus one cell per extension
step. -/
def runCells (r c : Int) (dc : Int) (k : Nat) : List (Int × Int) :=
  (List.range (k + 1)).map (fun i : Nat => (r + (i : Int), c + (i : Int) * dc))

/-- The visited set and emitted lines of one tracing pass. -/
structure TraceState where
  visited : List (Int × Int)
  lines : List DiagonalLine

/-- The loop body of `extractDiagonalLines` for one scanned cell: skip it
when invalid or already visited in this family, otherwise extend the run
greedily, mark every run cell visited and record the line. -/
def traceStep (grid : List (List Bool)) (skip : List (Nat × Nat)) (d : DiagDir)
    (st : TraceState) (r c : Int) : TraceState :=
  if isValidStitch grid skip r c = false ∨ (r, c) ∈ st.visited then st
  else
    let k := runLen grid skip (dirDc d) grid.length r c
    { visited := st.visited ++ runCells r c (dirDc d) k,
      lines := st.lines ++ [⟨r, c, r + k, c + k * dirDc d, d⟩] }

/-- One full row-major tracing pass of `extractDiagonalLines` for one
direction family. -/
def tracePass (grid : List (List Bool)) (skip : List (Nat × Nat)) (d : DiagDir) :
    TraceState :=
  (List.range grid.length).foldl (fun st (row : Nat) =>
    (List.range grid.length).foldl (fun st2 (col : Nat) =>
      traceStep grid skip d st2 (row : Int) (col : Int)) st)
    { visited := [], lines := [] }

/-- `extractDiagonalLines` from `diagonalOptimizer.ts`: the nw-se pass
followed by the ne-sw pass, each with its own visited set, pushing onto
one output array. -/
def extractDiagonalLines (grid : List (List Bool)) (skip : List (Nat × Nat)) :
    List DiagonalLine :=
  (tracePass grid skip DiagDir.nwse).lines ++ (tracePass grid skip DiagDir.nesw).lines

/-- The cells covered by a recorded diagonal run. -/
def cellsOfLine (L : DiagonalLine) : List (Int × Int) :=
  runCells L.startRow L.startCol (dirDc L.direction) (L.endRow - L.startRow).toNat


/-- Invariant of one tracing pass after the first `N` cells of the
row-major scan: visited cells are valid; every valid scanned cell is
visited; visited cells and recorded lines cover each other; no cell is
covered by two recorded lines; every recorded line has this pass's
direction, a well-formed descending segment shape, and is maximal at both
ends. -/
def PassInv (grid : List (List Bool)) (skip : List (Nat × Nat)) (d : DiagDir)
    (N : Nat) (st : TraceState) : Prop :=
  (∀ x ∈ st.visited, isValidStitch grid skip x.1 x.2 = true) ∧
  (∀ a b : Nat, a < grid.length → b < grid.length → a * grid.length + b < N →
     isValidStitch grid skip a b = true → ((a : Int), (b : Int)) ∈ st.visited) ∧
  (∀ x ∈ st.visited, ∃ L ∈ st.lines, x ∈ cellsOfLine L) ∧
  (∀ L ∈ st.lines, ∀ x ∈ cellsOfLine L, x ∈ st.visited) ∧
  (∀ x : Int × Int, st.lines.countP (fun L => decide (x ∈ cellsOfLine L)) ≤ 1) ∧
  (∀ L ∈ st.lines, L.direction = d ∧ L.startRow ≤ L.endRow ∧
     L.endCol = L.startCol + (L.endRow - L.startRow) * dirDc d ∧
     isValidStitch grid skip (L.startRow - 1) (L.startCol - dirDc d) = false ∧
     isValidStitch grid skip (L.endRow + 1) (L.endCol + dirDc d) = false)


/-- A drawable primitive of the exported SVG (`generateSVG` in the SVG
generation service).  The source emits these as markup text; the numeric
attributes are modelled exactly over `ℚ` (the JS arithmetic involved —
sums and products of small decimals — is exact). -/
inductive SVGPrim where
  | line (x1 y1 x2 y2 : ℚ) : SVGPrim
  | circle (cx cy r : ℚ) : SVGPrim
  | rect (x y w h : ℚ) : SVGPrim
deriving DecidableEq, Repr

/-- The `<line>` element emitted for one diagonal run (stitch group of
`generateSVG`, offset by one cell for the fiducial border). -/
def stitchLinePrim (cellSize : ℚ) (L : DiagonalLine) : SVGPrim :=
  SVGPrim.line
    (if L.direction = DiagDir.nwse then ((L.startCol : ℚ) + 1) * cellSize
     else ((L.startCol : ℚ) + 2) * cellSize)
    (((L.startRow : ℚ) + 1) * cellSize)
    (if L.direction = DiagDir.nwse then ((L.endCol : ℚ) + 2) * cellSize
     else ((L.endCol : ℚ) + 1) * cellSize)
    (((L.endRow : ℚ) + 2) * cellSize)

/-- `generateSVG` from the SVG generation service, as its ordered list of
drawable primitives: the four fiducial glyphs (TL `X` as two lines, TR
`||` as two lines, BL `O` as a circle, BR as a rect) followed by one line
per optimized diagonal run (`extractDiagonalLines(pattern.grid)`, no
cells excluded). -/
def generateSVGPrims (pattern : PatternData) (cellSize : ℚ) : List SVGPrim :=
  [SVGPrim.line (cellSize * 0.1) (cellSize * 0.1) (cellSize * 0.9) (cellSize * 0.9),
   SVGPrim.line (cellSize * 0.9) (cellSize * 0.1) (cellSize * 0.1) (cellSize * 0.9),
   SVGPrim.line (((pattern.config.gridSize : ℚ) + 1) * cellSize + cellSize * 0.35)
     (cellSize * 0.1)
     (((pattern.config.gridSize : ℚ) + 1) * cellSize + cellSize * 0.35) (cellSize * 0.9),
   SVGPrim.line (((pattern.config.gridSize : ℚ) + 1) * cellSize + cellSize * 0.65)
     (cellSize * 0.1)
     (((pattern.config.gridSize : ℚ) + 1) * cellSize + cellSize * 0.65) (cellSize * 0.9),
   SVGPrim.circle (cellSize / 2) (((pattern.config.gridSize : ℚ) + 1) * cellSize + cellSize / 2)
     ((cellSize - cellSize * 0.24) / 2),
   SVGPrim.rect (((pattern.config.gridSize : ℚ) + 1) * cellSize + cellSize * 0.1)
     (((pattern.config.gridSize : ℚ) + 1) * cellSize + cellSize * 0.1)
     (cellSize * 0.8) (cellSize * 0.8)]
  ++ (extractDiagonalLines pattern.grid []).map (stitchLinePrim cellSize)

/-- A border connector stroke in the sense of claim C8: an axis-aligned
line stroke longer than one cell.  Any stroke linking two adjacent corner
glyphs along the grid outer edge runs parallel to that edge across the
whole data region, so it is of this form; the glyph strokes themselves
fit inside a single cell and the stitch strokes are diagonal. -/
def connectorStroke (cellSize : ℚ) : SVGPrim → Bool
  | SVGPrim.line x1 y1 x2 y2 =>
      decide ((x1 = x2 ∨ y1 = y2) ∧ cellSize < |x2 - x1| + |y2 - y1|)
  | SVGPrim.circle _ _ _ => false
  | SVGPrim.rect _ _ _ _ => false

theorem getD_and_decide (l : List Bool) (k : Nat) :
    (decide (k < l.length) && l.getD k false) = l.getD k false := by
  by_cases h : k < l.length
  · simp [h]
  · simp [List.getD, List.getElem?_eq_none (Nat.le_of_not_lt h)]

theorem getD_true_lt (l : List Bool) (k : Nat) : l[k]?.getD false = true → k < l.length := by
  intro h
  by_contra hk
  rw [List.getElem?_eq_none (Nat.le_of_not_lt hk)] at h
  simp at h

theorem binaryToGrid7_eq (bits : List Bool) :
    binaryToGrid bits 7 =
      [[false, bits.getD 0 false, bits.getD 1 false, bits.getD 2 false,
        bits.getD 3 false, bits.getD 4 false, false],
       [bits.getD 5 false, bits.getD 6 false, bits.getD 7 false, bits.getD 8 false,
        bits.getD 9 false, bits.getD 10 false, bits.getD 11 false],
       [bits.getD 12 false, bits.getD 13 false, bits.getD 14 false, bits.getD 15 false,
        bits.getD 16 false, bits.getD 17 false, bits.getD 18 false],
       [bits.getD 19 false, bits.getD 20 false, bits.getD 21 false, bits.getD 22 false,
        bits.getD 23 false, bits.getD 24 false, bits.getD 25 false],
       [bits.getD 26 false, bits.getD 27 false, bits.getD 28 false, bits.getD 29 false,
        bits.getD 30 false, bits.getD 31 false, bits.getD 32 false],
       [bits.getD 33 false, bits.getD 34 false, bits.getD 35 false, bits.getD 36 false,
        bits.getD 37 false, bits.getD 38 false, bits.getD 39 false],
       [false, bits.getD 40 false, bits.getD 41 false, bits.getD 42 false,
        bits.getD 43 false, bits.getD 44 false, false]] := by
  unfold binaryToGrid
  rw [show List.range 7 = [0,1,2,3,4,5,6] from rfl]
  simp only [List.foldl]
  norm_num [getD_and_decide, cornerCell]
  repeat' apply And.intro
  all_goals exact getD_true_lt bits _

theorem gridToBinary_binaryToGrid7 (bits : List Bool) :
    gridToBinary (binaryToGrid bits 7) =
      (List.range 45).map (fun k => bits.getD k false) := by
  rw [binaryToGrid7_eq]
  unfold gridToBinary
  rw [show List.range 45 = [0,1,2,3,4,5,6,7,8,9,10,11,12,13,14,15,16,17,18,19,20,21,22,23,24,25,26,27,28,29,30,31,32,33,34,35,36,37,38,39,40,41,42,43,44] from rfl]
  norm_num [cornerCell, List.range_succ]

theorem range_map_getD (l : List Bool) (k : Nat) :
    (List.range (l.length + k)).map (fun i => l.getD i false) =
      l ++ List.replicate k false := by
  induction l with
  | nil =>
      simp only [List.length_nil, Nat.zero_add, List.nil_append]
      induction k with
      | zero => simp
      | succ n ih =>
          rw [List.range_succ, List.map_append, ih]
          simp [List.getD, List.replicate_succ']
  | cons a t ih =>
      have h1 : (a :: t).length + k = (t.length + k) + 1 := by
        simp [List.length_cons]; omega
      rw [h1, List.range_succ_eq_map, List.map_cons, List.map_map]
      have h2 : ((fun i => (a :: t).getD i false) ∘ Nat.succ) =
          (fun i => t.getD i false) := by
        funext i
        simp [List.getD]
      rw [h2, ih]
      simp [List.getD]

theorem gridToBinary_encode7 (bits : List Bool) (h : bits.length ≤ 45) :
    gridToBinary (binaryToGrid bits 7) =
      bits ++ List.replicate (45 - bits.length) false := by
  rw [gridToBinary_binaryToGrid7, show 45 = bits.length + (45 - bits.length) from by omega,
    range_map_getD]
  congr 2
  omega

theorem length_six_eq (l : List Char) (h : l.length = 6) :
    ∃ a b c d e f, l = [a, b, c, d, e, f] := by
  rcases l with _ | ⟨a, _ | ⟨b, _ | ⟨c, _ | ⟨d, _ | ⟨e, _ | ⟨f, _ | ⟨g, t⟩⟩⟩⟩⟩⟩⟩ <;>
    simp only [List.length_cons, List.length_nil] at h <;>
    first
      | omega
      | exact ⟨a, b, c, d, e, f, rfl⟩

theorem alphabet_char_bits :
    ∀ c ∈ VALID_CHARS,
      (padStart7 (natBits c.toNat)).length = 7 ∧
      true ∈ padStart7 (natBits c.toNat) ∧
      ¬ padStart7 (natBits c.toNat) = [false,false,false,false,false,false,false] ∧
      VALID_CHARS.contains
        ((Char.ofNat (bitsToNat (false :: padStart7 (natBits c.toNat)))).toUpper) = true ∧
      Char.ofNat (bitsToNat (false :: padStart7 (natBits c.toNat))) = c := by
  decide

theorem alphabet_no_star : ∀ c ∈ VALID_CHARS, c ≠ '*' := by decide

theorem gridToBinary_mem (g : List (List Bool)) (x : Bool) (hx : x ∈ gridToBinary g) :
    ∃ row ∈ g, x ∈ row := by
  unfold gridToBinary at hx
  simp only [List.mem_flatMap, List.mem_range] at hx
  obtain ⟨row, hrow, col, hcol, hxx⟩ := hx
  by_cases hc : cornerCell row col g.length
  · simp [hc] at hxx
  · simp only [hc, if_false, List.mem_singleton] at hxx
    subst hxx
    refine ⟨g.getD row [], ?_, ?_⟩
    · rw [List.getD_eq_getElem _ _ hrow]
      exact List.getElem_mem hrow
    · rw [List.getD_eq_getElem _ _ hcol]
      exact List.getElem_mem hcol

theorem gridToBinary_all_false (g : List (List Bool))
    (h : g.any (fun row => row.any (fun cell => cell)) = false) :
    ∀ x ∈ gridToBinary g, x = false := by
  intro x hx
  obtain ⟨row, hrow, hxrow⟩ := gridToBinary_mem g x hx
  rw [List.any_eq_false] at h
  have h2 := h row hrow
  rw [Bool.not_eq_true, List.any_eq_false] at h2
  simpa using h2 x hxrow

theorem zeros7_replicate : [false,false,false,false,false,false,false] = List.replicate 7 false := rfl


theorem drop_block7 (a rest : List Bool) (n : Nat) (h : a.length = 7) :
    (a ++ rest).drop (7 + n) = rest.drop n := by
  rw [← h, List.drop_append]

theorem take_block7 (a rest : List Bool) (h : a.length = 7) :
    (a ++ rest).take 7 = a := List.take_left' h

theorem decode_block (chunk : List Bool) (c : Char) (h7 : chunk.length = 7)
    (hnz : ¬ chunk = [false,false,false,false,false,false,false])
    (hvalid : VALID_CHARS.contains ((Char.ofNat (bitsToNat (false :: chunk))).toUpper) = true)
    (hchar : Char.ofNat (bitsToNat (false :: chunk)) = c) :
    (if chunk.length < 7 ∨ chunk = [false,false,false,false,false,false,false] then '*'
     else
       let paddedChunk := chunk ++ List.replicate (7 - chunk.length) false
       let asciiCode := bitsToNat (false :: paddedChunk)
       let char := Char.ofNat asciiCode
       if VALID_CHARS.contains char.toUpper then char else '*') = c := by
  rw [if_neg (by rw [h7]; simp [hnz])]
  simp only [h7]
  norm_num [hchar]
  intro hmem
  exfalso
  apply hmem
  have hv := hvalid
  rw [hchar] at hv
  simpa using hv

/-- C1: round trip — encoding any identifier of length 6 over the 36-symbol
alphabet (`idToBinary` then `binaryToGrid` into the 7x7 grid) and decoding
the resulting grid (`decodePattern`, i.e. `gridToBinary` plus 7-bit chunk
conversion with alphabet validation) yields exactly the original
identifier, with no wildcard in the result. -/
theorem roundtrip_encode_decode (id : List Char) (hlen : id.length = 6)
    (halpha : ∀ c ∈ id, c ∈ VALID_CHARS) :
    decodePattern (binaryToGrid (idToBinary id) 7) = id ∧ '*' ∉ id := by
  refine ⟨?_, fun hstar => alphabet_no_star '*' (halpha '*' hstar) rfl⟩
  obtain ⟨c0, c1, c2, c3, c4, c5, rfl⟩ := length_six_eq id hlen
  obtain ⟨l0, t0, z0, v0, ch0⟩ := alphabet_char_bits c0 (halpha c0 (by simp))
  obtain ⟨l1, -, z1, v1, ch1⟩ := alphabet_char_bits c1 (halpha c1 (by simp))
  obtain ⟨l2, -, z2, v2, ch2⟩ := alphabet_char_bits c2 (halpha c2 (by simp))
  obtain ⟨l3, -, z3, v3, ch3⟩ := alphabet_char_bits c3 (halpha c3 (by simp))
  obtain ⟨l4, -, z4, v4, ch4⟩ := alphabet_char_bits c4 (halpha c4 (by simp))
  obtain ⟨l5, -, z5, v5, ch5⟩ := alphabet_char_bits c5 (halpha c5 (by simp))
  set B0 := padStart7 (natBits c0.toNat) with hB0
  set B1 := padStart7 (natBits c1.toNat) with hB1
  set B2 := padStart7 (natBits c2.toNat) with hB2
  set B3 := padStart7 (natBits c3.toNat) with hB3
  set B4 := padStart7 (natBits c4.toNat) with hB4
  set B5 := padStart7 (natBits c5.toNat) with hB5
  have hbin : idToBinary [c0,c1,c2,c3,c4,c5] = B0 ++ (B1 ++ (B2 ++ (B3 ++ (B4 ++ B5)))) := by
    simp [idToBinary]
  have hlen42 : (idToBinary [c0,c1,c2,c3,c4,c5]).length = 42 := by
    rw [hbin]; simp [l0, l1, l2, l3, l4, l5]
  have hg2b : gridToBinary (binaryToGrid (idToBinary [c0,c1,c2,c3,c4,c5]) 7) =
      B0 ++ (B1 ++ (B2 ++ (B3 ++ (B4 ++ (B5 ++ List.replicate 3 false))))) := by
    have h := gridToBinary_encode7 (idToBinary [c0,c1,c2,c3,c4,c5]) (by omega)
    rw [hlen42] at h
    norm_num at h
    rw [h, hbin]
    simp [List.append_assoc]
  have htrue : true ∈ gridToBinary (binaryToGrid (idToBinary [c0,c1,c2,c3,c4,c5]) 7) := by
    rw [hg2b]
    exact List.mem_append_left _ t0
  have hdata : (binaryToGrid (idToBinary [c0,c1,c2,c3,c4,c5]) 7).any
      (fun row => row.any (fun cell => cell)) = true := by
    by_contra hfalse
    rw [Bool.not_eq_true] at hfalse
    have := gridToBinary_all_false _ hfalse true htrue
    exact absurd this (by simp)
  have hc0 : ((gridToBinary (binaryToGrid (idToBinary [c0,c1,c2,c3,c4,c5]) 7)).drop (0*7)).take 7 = B0 := by
    rw [hg2b]
    rw [show (0*7 : Nat) = 0 from rfl, List.drop_zero]
    exact take_block7 _ _ l0
  have hc1 : ((gridToBinary (binaryToGrid (idToBinary [c0,c1,c2,c3,c4,c5]) 7)).drop (1*7)).take 7 = B1 := by
    rw [hg2b, show (1*7 : Nat) = 7 + 0 from rfl, drop_block7 _ _ _ l0, List.drop_zero]
    exact take_block7 _ _ l1
  have hc2 : ((gridToBinary (binaryToGrid (idToBinary [c0,c1,c2,c3,c4,c5]) 7)).drop (2*7)).take 7 = B2 := by
    rw [hg2b, show (2*7 : Nat) = 7 + (7 + 0) from rfl, drop_block7 _ _ _ l0,
      drop_block7 _ _ _ l1, List.drop_zero]
    exact take_block7 _ _ l2
  have hc3 : ((gridToBinary (binaryToGrid (idToBinary [c0,c1,c2,c3,c4,c5]) 7)).drop (3*7)).take 7 = B3 := by
    rw [hg2b, show (3*7 : Nat) = 7 + (7 + (7 + 0)) from rfl, drop_block7 _ _ _ l0,
      drop_block7 _ _ _ l1, drop_block7 _ _ _ l2, List.drop_zero]
    exact take_block7 _ _ l3
  have hc4 : ((gridToBinary (binaryToGrid (idToBinary [c0,c1,c2,c3,c4,c5]) 7)).drop (4*7)).take 7 = B4 := by
    rw [hg2b, show (4*7 : Nat) = 7 + (7 + (7 + (7 + 0))) from rfl, drop_block7 _ _ _ l0,
      drop_block7 _ _ _ l1, drop_block7 _ _ _ l2, drop_block7 _ _ _ l3, List.drop_zero]
    exact take_block7 _ _ l4
  have hc5 : ((gridToBinary (binaryToGrid (idToBinary [c0,c1,c2,c3,c4,c5]) 7)).drop (5*7)).take 7 = B5 := by
    rw [hg2b, show (5*7 : Nat) = 7 + (7 + (7 + (7 + (7 + 0)))) from rfl, drop_block7 _ _ _ l0,
      drop_block7 _ _ _ l1, drop_block7 _ _ _ l2, drop_block7 _ _ _ l3, drop_block7 _ _ _ l4,
      List.drop_zero]
    exact take_block7 _ _ l5
  unfold decodePattern
  rw [if_neg (by rw [hdata]; simp)]
  rw [show List.range 6 = [0,1,2,3,4,5] from rfl]
  simp only [List.map_cons, List.map_nil]
  rw [hc0, hc1, hc2, hc3, hc4, hc5]
  rw [decode_block B0 c0 l0 z0 v0 ch0, decode_block B1 c1 l1 z1 v1 ch1,
    decode_block B2 c2 l2 z2 v2 ch2, decode_block B3 c3 l3 z3 v3 ch3,
    decode_block B4 c4 l4 z4 v4 ch4, decode_block B5 c5 l5 z5 v5 ch5]

/-- Witness for C1 at the identifier `"A1B2C3"`. -/
theorem roundtrip_encode_decode_witness :
    (['A','1','B','2','C','3'] : List Char).length = 6 ∧
    decodePattern (binaryToGrid (idToBinary ['A','1','B','2','C','3']) 7) =
      ['A','1','B','2','C','3'] ∧
    '*' ∉ (['A','1','B','2','C','3'] : List Char) := by
  have h := roundtrip_encode_decode ['A','1','B','2','C','3'] rfl (by decide)
  exact ⟨rfl, h.1, h.2⟩

/-- C4 counterexample: a record whose identifier field is present but the
empty string, with a matching 7x7 grid and gridSize 7, is sent to
migration by the code (`!pattern.id` is true for the empty string), while
the claim's condition — identifier field absent, row-count mismatch, or
legacy size 16/8 — does not hold for it. -/
theorem needsMigration_claim_counterexample :
    needsMigration { grid := List.replicate 7 (List.replicate 7 false),
                     id := some [],
                     config := { gridSize := 7, cellSize := 20 } } = true ∧
    ¬ ((some [] : Option (List Char)) = none ∨
       (List.replicate 7 (List.replicate 7 false)).length ≠ (7 : Nat) ∨
       (7 : Nat) = 16 ∨ (7 : Nat) = 8) := by
  constructor
  · decide
  · push_neg
    refine ⟨by simp, by simp, by omega, by omega⟩

/-- C4 (amended): `needsMigration` returns true iff the record lacks an
identifier field or its identifier is the empty string, or the stored
grid's row count differs from the declared gridSize, or the declared
gridSize is one of the obsolete scheme constants 16 or 8. -/
theorem needsMigration_iff (p : PatternData) :
    needsMigration p = true ↔
      (p.id = none ∨ p.id = some [] ∨ p.grid.length ≠ p.config.gridSize ∨
       p.config.gridSize = 16 ∨ p.config.gridSize = 8) := by
  rcases p with ⟨grid, id, gridSize, cellSize⟩
  rcases id with _ | s
  · simp [needsMigration, jsFalsyId]
  · rcases s with _ | ⟨a, t⟩
    · simp [needsMigration, jsFalsyId]
    · simp only [needsMigration, jsFalsyId, List.isEmpty_cons, if_false]
      by_cases hg : grid.length ≠ gridSize
      · simp [hg]
      · by_cases hs : gridSize = 16 ∨ gridSize = 8 <;> simp [hg, hs]

theorem jsHashStep_eq_specHashStep (h : Int) (c : Nat) :
    jsHashStep h c = specHashStep h c := by
  unfold jsHashStep specHashStep toInt32
  omega

theorem toInt32_bounds (x : Int) :
    -2147483648 ≤ toInt32 x ∧ toInt32 x < 2147483648 := by
  unfold toInt32
  omega

theorem foldl_jsHashStep_bounds (codes : List Nat) (h : Int)
    (hl : -2147483648 ≤ h) (hr : h ≤ 2147483648) :
    -2147483648 ≤ codes.foldl jsHashStep h ∧ codes.foldl jsHashStep h ≤ 2147483648 := by
  induction codes generalizing h with
  | nil => exact ⟨hl, hr⟩
  | cons c t ih =>
      rw [List.foldl_cons]
      have hb := toInt32_bounds (toInt32 (h * 32) - h + c)
      exact ih _ hb.1 (le_of_lt hb.2)

theorem simpleHash_le (message : List Char) : simpleHash message ≤ 2147483648 := by
  unfold simpleHash
  have h := foldl_jsHashStep_bounds (message.map Char.toNat) 0 (by omega) (by omega)
  omega

theorem toDigitsRev_lt_base (b : Nat) (hb : 0 < b) :
    ∀ fuel n, ∀ d ∈ toDigitsRev b fuel n, d < b := by
  intro fuel
  induction fuel with
  | zero => intro n d hd; simp [toDigitsRev] at hd
  | succ f ih =>
      intro n d hd
      unfold toDigitsRev at hd
      by_cases hn : n = 0
      · simp [hn] at hd
      · rw [if_neg hn] at hd
        rcases List.mem_cons.mp hd with h | h
        · subst h; exact Nat.mod_lt _ hb
        · exact ih _ d h

theorem toDigitsRev_length_le (b : Nat) (hb : 2 ≤ b) :
    ∀ fuel n k, n < b ^ k → (toDigitsRev b fuel n).length ≤ k := by
  intro fuel
  induction fuel with
  | zero => intro n k _; simp [toDigitsRev]
  | succ f ih =>
      intro n k hn
      unfold toDigitsRev
      by_cases h0 : n = 0
      · simp [h0]
      · rw [if_neg h0, List.length_cons]
        have hk : k ≠ 0 := by
          rintro rfl
          simp at hn
          omega
        obtain ⟨k2, rfl⟩ : ∃ k2, k = k2 + 1 := ⟨k - 1, by omega⟩
        have hdiv : n / b < b ^ k2 := by
          rw [Nat.div_lt_iff_lt_mul (by omega)]
          calc n < b ^ (k2 + 1) := hn
          _ = b ^ k2 * b := by ring
        exact Nat.succ_le_succ (ih _ k2 hdiv)

theorem jsToStringDigits_facts (b n : Nat) (hb : 2 ≤ b) (k : Nat) (hk : 0 < k)
    (hn : n < b ^ k) :
    (jsToStringDigits b n).length ≤ k ∧ ∀ d ∈ jsToStringDigits b n, d < b := by
  unfold jsToStringDigits
  by_cases h0 : n = 0
  · subst h0
    simp [hk]
    omega
  · rw [if_neg h0]
    constructor
    · rw [List.length_reverse]
      exact toDigitsRev_length_le b hb n n k hn
    · intro d hd
      exact toDigitsRev_lt_base b (by omega) n n d (List.mem_reverse.mp hd)

theorem jsDigitChar_upper_alpha : ∀ d, d < 36 → (jsDigitChar d).toUpper ∈ VALID_CHARS := by
  decide

theorem hashToId_facts (n : Nat) (hn : n < 36 ^ 6) :
    (hashToId n).length = 6 ∧ ∀ c ∈ hashToId n, c ∈ VALID_CHARS := by
  obtain ⟨hlen, hdig⟩ := jsToStringDigits_facts 36 n (by omega) 6 (by omega) hn
  unfold hashToId
  simp only [ID_LENGTH]
  constructor
  · rw [List.length_append, List.length_replicate, List.length_take]
    simp only [List.length_map]
    omega
  · intro c hc
    rcases List.mem_append.mp hc with h | h
    · have h2 := List.mem_of_mem_take h
      simp only [List.mem_map] at h2
      obtain ⟨b, ⟨d, hd, rfl⟩, rfl⟩ := h2
      exact jsDigitChar_upper_alpha d (hdig d hd)
    · have := List.eq_of_mem_replicate h
      subst this
      decide

/-- C5: the JS accumulator `((hash << 5) - hash) + charCode` with a 32-bit
wrap after each step agrees with the spec's `hash*31 + charCode` 32-bit
signed accumulation, and the generated identifier — absolute value,
base-36, upper-case, first 6 characters, right-padded with `'0'` — is
always exactly 6 characters drawn from `0-9A-Z`, for every input. -/
theorem hash_accumulator_and_id_shape :
    (∀ codes : List Nat, codes.foldl jsHashStep 0 = codes.foldl specHashStep 0) ∧
    (∀ memory now, (hashMemory memory now).length = 6 ∧
      ∀ c ∈ hashMemory memory now, c ∈ VALID_CHARS) := by
  constructor
  · intro codes
    have : jsHashStep = specHashStep := by
      funext h c
      exact jsHashStep_eq_specHashStep h c
    rw [this]
  · intro memory now
    unfold hashMemory
    have hle : simpleHash (if optStr memory.title ++ optStr memory.text ++
        (match memory.images with
         | none => []
         | some imgs => imgs.flatMap (fun image => image.take 500)) = [] then now
        else optStr memory.title ++ optStr memory.text ++
        (match memory.images with
         | none => []
         | some imgs => imgs.flatMap (fun image => image.take 500))) ≤ 2147483648 :=
      simpleHash_le _
    exact hashToId_facts _ (by omega)

/-- C9: the generated pattern depends only on the memory's text field —
`generatePatternFromMemory` hands `hashMemory` an argument with only
`text` populated, so two memories with the same non-empty text (any
titles, any image lists, any ids/timestamps) produce identical
identifiers and grids. -/
theorem pattern_depends_only_on_text (m1 m2 : Memory) (now1 now2 : List Char)
    (htext : m1.text = m2.text) (hne : ∃ t, m1.text = some t ∧ t ≠ []) :
    generatePatternFromMemory m1 now1 = generatePatternFromMemory m2 now2 := by
  obtain ⟨t, ht, htne⟩ := hne
  unfold generatePatternFromMemory hashMemory
  rw [← htext, ht]
  simp [optStr, htne]

/-- Witness for C9: same text, different titles, image lists, ids,
timestamps and fallback clocks. -/
theorem pattern_depends_only_on_text_witness :
    generatePatternFromMemory
        { id := [], title := some ['T'], text := some ['H','I'],
          images := some [['X','Y']], timestamp := 0 } ['9'] =
      generatePatternFromMemory
        { id := ['i','d'], title := none, text := some ['H','I'],
          images := none, timestamp := 5 } ['8'] := by
  exact pattern_depends_only_on_text _ _ _ _ rfl ⟨['H','I'], rfl, by decide⟩

theorem natCeilSqrt_spec (n : Nat) :
    n ≤ natCeilSqrt n * natCeilSqrt n ∧
    ∀ m, n ≤ m * m → natCeilSqrt n ≤ m := by
  unfold natCeilSqrt
  by_cases h : Nat.sqrt n * Nat.sqrt n = n
  · rw [if_pos h]
    refine ⟨le_of_eq h.symm, fun m hm => ?_⟩
    have := Nat.sqrt_le_sqrt hm
    rwa [Nat.sqrt_eq m] at this
  · rw [if_neg h]
    constructor
    · exact le_of_lt (Nat.lt_succ_sqrt n)
    · intro m hm
      by_contra hlt
      push_neg at hlt
      have hms : m ≤ Nat.sqrt n := by omega
      have h1 : m * m ≤ Nat.sqrt n * Nat.sqrt n := Nat.mul_le_mul hms hms
      have h2 : Nat.sqrt n * Nat.sqrt n ≤ n := Nat.sqrt_le n
      exact h (le_antisymm h2 (le_trans hm h1))

theorem char_lt128_bits7 : ∀ code : Nat, code < 128 →
    (padStart7 (natBits code)).length = 7 := by decide

theorem idToBinary_length_six (id : List Char) (hlen : id.length = 6)
    (hcode : ∀ c ∈ id, c.toNat < 128) :
    (idToBinary id).length = 42 := by
  obtain ⟨c0, c1, c2, c3, c4, c5, rfl⟩ := length_six_eq id hlen
  have h0 := char_lt128_bits7 c0.toNat (hcode c0 (by simp))
  have h1 := char_lt128_bits7 c1.toNat (hcode c1 (by simp))
  have h2 := char_lt128_bits7 c2.toNat (hcode c2 (by simp))
  have h3 := char_lt128_bits7 c3.toNat (hcode c3 (by simp))
  have h4 := char_lt128_bits7 c4.toNat (hcode c4 (by simp))
  have h5 := char_lt128_bits7 c5.toNat (hcode c5 (by simp))
  simp [idToBinary, h0, h1, h2, h3, h4, h5]

/-- C6: `calculateGridSize L` is the ceiling of the square root of
`4 + 7·L` (the least `N` with `N·N ≥ 4 + 7·L`) for every positive `L`,
giving `calculateGridSize 6 = 7`; and for a length-6 identifier the 42
data bits occupy the first 42 non-corner cells of the encoded grid in
row-major order, with the 3 trailing data cells always false. -/
theorem gridSize_formula_and_bit_layout :
    (∀ L : Nat, 0 < L →
      4 + 7 * L ≤ calculateGridSize L * calculateGridSize L ∧
      ∀ m, 4 + 7 * L ≤ m * m → calculateGridSize L ≤ m) ∧
    calculateGridSize 6 = 7 ∧
    (∀ id : List Char, id.length = 6 → (∀ c ∈ id, c.toNat < 128) →
      gridToBinary (binaryToGrid (idToBinary id) 7) =
        idToBinary id ++ [false, false, false]) := by
  have hsize : calculateGridSize 6 = 7 := by
    have h := natCeilSqrt_spec 46
    have hle : natCeilSqrt 46 ≤ 7 := h.2 7 (by omega)
    have hge : 7 ≤ natCeilSqrt 46 := by
      by_contra hlt
      push_neg at hlt
      have h6 : natCeilSqrt 46 ≤ 6 := by omega
      have := Nat.mul_le_mul h6 h6
      omega
    show natCeilSqrt 46 = 7
    omega
  refine ⟨fun L _ => ?_, hsize, fun id hlen hcode => ?_⟩
  · have h := natCeilSqrt_spec (4 + L * 7)
    unfold calculateGridSize
    constructor
    · have := h.1
      omega
    · intro m hm
      exact h.2 m (by omega)
  · have h42 := idToBinary_length_six id hlen hcode
    have h := gridToBinary_encode7 (idToBinary id) (by omega)
    rw [h42] at h
    norm_num at h
    rw [h]
    rfl

/-- Witness for C6 at `L = 6` and the identifier `"A1B2C3"`. -/
theorem gridSize_formula_and_bit_layout_witness :
    (0 < 6 ∧ 4 + 7 * 6 ≤ calculateGridSize 6 * calculateGridSize 6) ∧
    gridToBinary (binaryToGrid (idToBinary ['A','1','B','2','C','3']) 7) =
      idToBinary ['A','1','B','2','C','3'] ++ [false, false, false] := by
  constructor
  · exact ⟨by omega, (gridSize_formula_and_bit_layout.1 6 (by omega)).1⟩
  · exact gridSize_formula_and_bit_layout.2.2 ['A','1','B','2','C','3'] rfl (by decide)

theorem bitsToNat_cons_false (l : List Bool) : bitsToNat (false :: l) = bitsToNat l := by
  unfold bitsToNat
  simp

theorem star_mem_iff (l : List Char) (hl : l.length = 6) :
    '*' ∈ l ↔ ∃ i, i < 6 ∧ l.getD i 'A' = '*' := by
  constructor
  · intro hm
    obtain ⟨i, hi, hx⟩ := List.mem_iff_getElem.mp hm
    exact ⟨i, by omega, by rw [List.getD_eq_getElem _ _ (by omega)]; exact hx⟩
  · rintro ⟨i, hi, hx⟩
    rw [List.getD_eq_getElem _ _ (by omega)] at hx
    rw [← hx]
    exact List.getElem_mem _

theorem decodePattern_length_and_positions (grid : List (List Bool)) :
    (decodePattern grid).length = 6 ∧
    (∀ i, i < 6 → ((decodePattern grid).getD i 'A' = '*' ↔ wildcardCond grid i)) := by
  by_cases hdata : grid.any (fun row => row.any (fun cell => cell)) = false
  · have hdec : decodePattern grid = ['*','*','*','*','*','*'] := by
      unfold decodePattern
      rw [if_pos hdata]
    have hallf := gridToBinary_all_false grid hdata
    refine ⟨by rw [hdec]; rfl, fun i hi => ?_⟩
    have hwc : wildcardCond grid i := by
      unfold wildcardCond chunkAt
      set chunk := ((gridToBinary grid).drop (i * 7)).take 7 with hchunk
      have hsub : ∀ x ∈ chunk, x = false := by
        intro x hx
        exact hallf x (List.mem_of_mem_drop (List.mem_of_mem_take hx))
      by_cases h7 : chunk.length = 7
      · right; left
        exact List.eq_replicate_iff.mpr ⟨h7, hsub⟩
      · left
        have : chunk.length ≤ 7 := by
          rw [hchunk, List.length_take]
          omega
        omega
    constructor
    · intro _; exact hwc
    · intro _
      rw [hdec]
      interval_cases i <;> rfl
  · have hdec : decodePattern grid = (List.range 6).map (fun i =>
        let chunk := ((gridToBinary grid).drop (i * 7)).take 7
        if chunk.length < 7 ∨ chunk = [false,false,false,false,false,false,false] then '*'
        else
          let paddedChunk := chunk ++ List.replicate (7 - chunk.length) false
          let asciiCode := bitsToNat (false :: paddedChunk)
          let char := Char.ofNat asciiCode
          if VALID_CHARS.contains char.toUpper then char else '*') := by
      unfold decodePattern
      rw [if_neg hdata]
    refine ⟨by rw [hdec]; simp, fun i hi => ?_⟩
    have hget : (decodePattern grid).getD i 'A' =
        (fun i =>
          let chunk := ((gridToBinary grid).drop (i * 7)).take 7
          if chunk.length < 7 ∨ chunk = [false,false,false,false,false,false,false] then '*'
          else
            let paddedChunk := chunk ++ List.replicate (7 - chunk.length) false
            let asciiCode := bitsToNat (false :: paddedChunk)
            let char := Char.ofNat asciiCode
            if VALID_CHARS.contains char.toUpper then char else '*') i := by
      rw [hdec, List.getD_eq_getElem _ _ (by simpa using hi)]
      simp
    rw [hget]
    simp only []
    set chunk := ((gridToBinary grid).drop (i * 7)).take 7 with hchunk
    by_cases h1 : chunk.length < 7 ∨ chunk = [false,false,false,false,false,false,false]
    · rw [if_pos h1]
      constructor
      · intro _
        unfold wildcardCond chunkAt
        rw [← hchunk]
        rcases h1 with h | h
        · exact Or.inl h
        · exact Or.inr (Or.inl (h.trans (by decide)))
      · intro _
        rfl
    · rw [if_neg h1]
      push_neg at h1
      have hlen7 : chunk.length = 7 := by
        have : chunk.length ≤ 7 := by
          rw [hchunk, List.length_take]
          omega
        omega
      rw [hlen7]
      norm_num
      constructor
      · intro himp
        by_cases hmem : (Char.ofNat (bitsToNat (false :: chunk))).toUpper ∈ VALID_CHARS
        · exfalso
          have hstar := himp hmem
          rw [hstar] at hmem
          revert hmem
          decide
        · unfold wildcardCond chunkAt
          rw [← hchunk]
          refine Or.inr (Or.inr ?_)
          rw [show bitsToNat chunk = bitsToNat (false :: chunk) from
            (bitsToNat_cons_false chunk).symm]
          exact hmem
      · intro hwc hmem
        exfalso
        unfold wildcardCond chunkAt at hwc
        rw [← hchunk] at hwc
        rcases hwc with h | h | h
        · omega
        · exact h1.2 (h.trans (by decide))
        · rw [bitsToNat_cons_false] at hmem
          exact h hmem



theorem decodePattern_readable_char (grid : List (List Bool)) :
    ∀ i, i < 6 → ¬ wildcardCond grid i →
      (decodePattern grid).getD i 'A' = Char.ofNat (bitsToNat (chunkAt grid i)) := by
  intro i hi hwc
  unfold wildcardCond at hwc
  push_neg at hwc
  obtain ⟨hlen, hnz, hvalidmem⟩ := hwc
  by_cases hdata : grid.any (fun row => row.any (fun cell => cell)) = false
  · exfalso
    have hallf := gridToBinary_all_false grid hdata
    apply hnz
    refine List.eq_replicate_iff.mpr ⟨?_, ?_⟩
    · have hle : (chunkAt grid i).length ≤ 7 := by
        unfold chunkAt
        rw [List.length_take]
        omega
      omega
    · intro x hx
      exact hallf x (List.mem_of_mem_drop (List.mem_of_mem_take hx))
  · have hdec : decodePattern grid = (List.range 6).map (fun i =>
        let chunk := ((gridToBinary grid).drop (i * 7)).take 7
        if chunk.length < 7 ∨ chunk = [false,false,false,false,false,false,false] then '*'
        else
          let paddedChunk := chunk ++ List.replicate (7 - chunk.length) false
          let asciiCode := bitsToNat (false :: paddedChunk)
          let char := Char.ofNat asciiCode
          if VALID_CHARS.contains char.toUpper then char else '*') := by
      unfold decodePattern
      rw [if_neg hdata]
    have hget : (decodePattern grid).getD i 'A' =
        (fun i =>
          let chunk := ((gridToBinary grid).drop (i * 7)).take 7
          if chunk.length < 7 ∨ chunk = [false,false,false,false,false,false,false] then '*'
          else
            let paddedChunk := chunk ++ List.replicate (7 - chunk.length) false
            let asciiCode := bitsToNat (false :: paddedChunk)
            let char := Char.ofNat asciiCode
            if VALID_CHARS.contains char.toUpper then char else '*') i := by
      rw [hdec, List.getD_eq_getElem _ _ (by simpa using hi)]
      simp
    rw [hget]
    simp only []
    set chunk := ((gridToBinary grid).drop (i * 7)).take 7 with hchunk
    have hch : chunkAt grid i = chunk := rfl
    rw [hch] at hlen hnz hvalidmem
    have hlen7 : chunk.length = 7 := by
      have : chunk.length ≤ 7 := by
        rw [hchunk, List.length_take]
        omega
      omega
    rw [if_neg (by
      rintro (h | h)
      · omega
      · exact hnz (h.trans (by decide)))]
    rw [hlen7]
    norm_num
    rw [if_pos (by rw [bitsToNat_cons_false]; exact hvalidmem), bitsToNat_cons_false, hch]

/-- C3: for every input grid the decoder returns exactly 6 characters
(total, never raising); position `i` is `'*'` iff the `i`-th 7-bit chunk
of the grid's bit string is short, all zeros, or maps to a character
outside the alphabet under case-insensitive comparison; otherwise
position `i` is exactly the character obtained from that chunk's numeric
code point; and the decode is complete exactly when no `'*'` appears. -/
theorem decoder_wildcard_tolerance (grid : List (List Bool)) :
    (decodePattern grid).length = 6 ∧
    (∀ i, i < 6 → ((decodePattern grid).getD i 'A' = '*' ↔ wildcardCond grid i)) ∧
    (∀ i, i < 6 → ¬ wildcardCond grid i →
      (decodePattern grid).getD i 'A' = Char.ofNat (bitsToNat (chunkAt grid i))) ∧
    (decodeComplete grid ↔ ∀ i, i < 6 → ¬ wildcardCond grid i) := by
  have main := decodePattern_length_and_positions grid
  refine ⟨main.1, main.2, decodePattern_readable_char grid, ?_⟩
  unfold decodeComplete
  rw [star_mem_iff _ main.1]
  constructor
  · intro h i hi hwc
    exact h ⟨i, hi, (main.2 i hi).mpr hwc⟩
  · rintro h ⟨i, hi, hx⟩
    exact h i hi ((main.2 i hi).mp hx)

/-- Witness for C3 at the encoded `"A1B2C3"` grid and position 0 (a
readable position, exercising both the wildcard iff and the
readable-character conjunct). -/
theorem decoder_wildcard_tolerance_witness :
    (0 : Nat) < 6 ∧
    ¬ wildcardCond (binaryToGrid (idToBinary ['A','1','B','2','C','3']) 7) 0 ∧
    ((decodePattern (binaryToGrid (idToBinary ['A','1','B','2','C','3']) 7)).getD 0 'A' = '*' ↔
      wildcardCond (binaryToGrid (idToBinary ['A','1','B','2','C','3']) 7) 0) ∧
    (decodePattern (binaryToGrid (idToBinary ['A','1','B','2','C','3']) 7)).getD 0 'A' =
      Char.ofNat (bitsToNat (chunkAt (binaryToGrid (idToBinary ['A','1','B','2','C','3']) 7) 0)) :=
  ⟨by omega, by decide, (decoder_wildcard_tolerance _).2.1 0 (by omega),
   (decoder_wildcard_tolerance _).2.2.1 0 (by omega) (by decide)⟩

/-- C10: the decoder's output alphabet is not closed over `0-9A-Z*` — the
grid whose first 7 data cells hold the bits `1100001` (code point 97)
decodes to a string containing the lowercase letter `'a'`, because
alphabet membership is checked on the upper-cased character while the
original character is emitted. -/
theorem decoder_lowercase_leak :
    decodePattern (binaryToGrid (padStart7 (natBits 97) ++ List.replicate 35 false) 7) =
      ['a','*','*','*','*','*'] ∧
    'a' ∈ decodePattern (binaryToGrid (padStart7 (natBits 97) ++ List.replicate 35 false) 7) ∧
    'a' ∉ VALID_CHARS ∧ 'a' ≠ '*' := by decide

section Optimizer

variable (grid : List (List Bool)) (skip : List (Nat × Nat))

theorem valid_bounds (r c : Int) (h : isValidStitch grid skip r c = true) :
    0 ≤ r ∧ r < (grid.length : Int) ∧ 0 ≤ c ∧ c < (grid.length : Int) := by
  unfold isValidStitch at h
  split_ifs at h
  · omega

theorem runLen_cells_valid (dc : Int) :
    ∀ (fuel : Nat) (r c : Int) (i : Nat), 1 ≤ i → i ≤ runLen grid skip dc fuel r c →
      isValidStitch grid skip (r + i) (c + i * dc) = true := by
  intro fuel
  induction fuel with
  | zero =>
      intro r c i h1 h2
      simp [runLen] at h2
      omega
  | succ f ih =>
      intro r c i h1 h2
      unfold runLen at h2
      by_cases hv : isValidStitch grid skip (r + 1) (c + dc) = true
      · rw [if_pos hv] at h2
        rcases Nat.eq_or_lt_of_le h1 with h | h
        · subst h
          simpa using hv
        · have hi2 : 1 ≤ i - 1 := by omega
          have hle : i - 1 ≤ runLen grid skip dc f (r + 1) (c + dc) := by omega
          have := ih (r + 1) (c + dc) (i - 1) hi2 hle
          have hcast : ((i - 1 : Nat) : Int) = (i : Int) - 1 := by
            push_cast [Nat.cast_sub (by omega : 1 ≤ i)]
            ring
          rw [hcast] at this
          convert this using 2 <;> ring
      · rw [if_neg hv] at h2
        omega

theorem runLen_max (dc : Int) :
    ∀ (fuel : Nat) (r c : Int), runLen grid skip dc fuel r c < fuel →
      isValidStitch grid skip (r + (runLen grid skip dc fuel r c + 1))
        (c + (runLen grid skip dc fuel r c + 1) * dc) = false := by
  intro fuel
  induction fuel with
  | zero => intro r c h; omega
  | succ f ih =>
      intro r c h
      unfold runLen at h ⊢
      by_cases hv : isValidStitch grid skip (r + 1) (c + dc) = true
      · rw [if_pos hv] at h ⊢
        have hlt : runLen grid skip dc f (r + 1) (c + dc) < f := by omega
        have := ih (r + 1) (c + dc) hlt
        convert this using 2 <;> push_cast <;> ring
      · rw [if_neg hv] at h ⊢
        simp only [Nat.cast_zero, Int.zero_add, zero_add, one_mul]
        simpa using hv

theorem runLen_lt_fuel (dc : Int) (r c : Int)
    (h : isValidStitch grid skip r c = true) :
    runLen grid skip dc grid.length r c < grid.length := by
  obtain ⟨hr0, hrg, _, _⟩ := valid_bounds grid skip r c h
  set k := runLen grid skip dc grid.length r c with hk
  rcases Nat.eq_zero_or_pos k with h0 | hpos
  · omega
  · have := runLen_cells_valid grid skip dc grid.length r c k hpos (le_refl k)
    obtain ⟨h1, h2, _, _⟩ := valid_bounds grid skip _ _ this
    omega

theorem rowmajor_unique (g a b R C : Nat) (hb : b < g) (hC : C < g)
    (h : a * g + b = R * g + C) : a = R ∧ b = C := by
  have ha : a = R := by
    rcases Nat.lt_trichotomy a R with h1 | h1 | h1
    · exfalso
      have h2 : (a + 1) * g ≤ R * g := Nat.mul_le_mul_right g h1
      have h3 : (a + 1) * g = a * g + g := by ring
      omega
    · exact h1
    · exfalso
      have h2 : (R + 1) * g ≤ a * g := Nat.mul_le_mul_right g h1
      have h3 : (R + 1) * g = R * g + g := by ring
      omega
  subst ha
  omega

theorem rowmajor_lt (g a b : Nat) (ha : a < g) (hb : b < g) :
    a * g + b < g * g := by
  have h2 : (a + 1) * g ≤ g * g := Nat.mul_le_mul_right g ha
  have h3 : (a + 1) * g = a * g + g := by ring
  omega

theorem mem_runCells (r c dc : Int) (k : Nat) (x : Int × Int) :
    x ∈ runCells r c dc k ↔ ∃ i : Nat, i ≤ k ∧ x = (r + i, c + i * dc) := by
  unfold runCells
  constructor
  · intro hx
    obtain ⟨i, hi, hxe⟩ := List.mem_map.mp hx
    exact ⟨i, Nat.lt_succ_iff.mp (List.mem_range.mp hi), hxe.symm⟩
  · rintro ⟨i, hi, rfl⟩
    exact List.mem_map.mpr ⟨i, List.mem_range.mpr (Nat.lt_succ_iff.mpr hi), rfl⟩

theorem cellsOfLine_mk (d : DiagDir) (r c : Int) (k : Nat) :
    cellsOfLine ⟨r, c, r + k, c + k * dirDc d, d⟩ = runCells r c (dirDc d) k := by
  unfold cellsOfLine
  simp only []
  congr 1
  rw [show r + (k : Int) - r = (k : Int) by ring]
  exact Int.toNat_natCast k

theorem mem_cellsOfLine (L : DiagonalLine) (x : Int × Int) :
    x ∈ cellsOfLine L ↔ ∃ j : Nat, j ≤ (L.endRow - L.startRow).toNat ∧
      x = (L.startRow + j, L.startCol + j * dirDc L.direction) := by
  unfold cellsOfLine
  exact mem_runCells _ _ _ _ x

theorem cast_succ_mul (j : Nat) (dc : Int) :
    ((j + 1 : Nat) : Int) * dc = (j : Int) * dc + dc := by push_cast; ring

theorem cast_pred_mul (j : Nat) (dc : Int) (h : 1 ≤ j) :
    ((j - 1 : Nat) : Int) * dc = (j : Int) * dc - dc := by push_cast [h]; ring

theorem start_maximal (d : DiagDir) (N R C : Nat) (st : TraceState)
    (hinv : PassInv grid skip d N st)
    (hN : N = R * grid.length + C) (hR : R < grid.length) (hC : C < grid.length)
    (hvalid : isValidStitch grid skip (R : Int) (C : Int) = true)
    (hnotvis : ((R : Int), (C : Int)) ∉ st.visited) :
    isValidStitch grid skip ((R : Int) - 1) ((C : Int) - dirDc d) = false := by
  obtain ⟨I1, I2, I3, I4, I5, I6⟩ := hinv
  by_contra hprev
  rw [Bool.not_eq_false] at hprev
  obtain ⟨hpr0, hprg, hpc0, hpcg⟩ := valid_bounds grid skip _ _ hprev
  set g := grid.length with hg
  have hR1 : 1 ≤ R := by omega
  set a : Nat := R - 1 with ha
  set b : Nat := ((C : Int) - dirDc d).toNat with hb
  have hacast : ((a : Nat) : Int) = (R : Int) - 1 := by
    rw [ha]; omega
  have hbcast : ((b : Nat) : Int) = (C : Int) - dirDc d := Int.toNat_of_nonneg hpc0
  have hblt : b < g := by omega
  have hidx : a * g + b < N := by
    rw [hN]
    have h3 : a * g + g = R * g := by
      have h4 : a + 1 = R := by omega
      calc a * g + g = (a + 1) * g := by ring
      _ = R * g := by rw [h4]
    omega
  have hprev2 : isValidStitch grid skip (a : Int) (b : Int) = true := by
    rw [hacast, hbcast]; exact hprev
  have hprevmem := I2 a b (by omega) hblt hidx hprev2
  obtain ⟨L, hL, hxL⟩ := I3 _ hprevmem
  obtain ⟨hdir, hsrle, hshape, hsmax, hemax⟩ := I6 L hL
  obtain ⟨j, hj, hxeq⟩ := (mem_cellsOfLine L _).mp hxL
  rw [hdir, Prod.ext_iff] at hxeq
  obtain ⟨hx1, hx2⟩ := hxeq
  simp only [] at hx1 hx2
  rcases Nat.eq_or_lt_of_le hj with hjend | hjlt
  · -- prev is the end of L: the forward-maximality of L contradicts validity of (R, C)
    have hjcast : (j : Int) = L.endRow - L.startRow := by
      rw [hjend]
      exact Int.toNat_of_nonneg (by omega)
    have her : L.endRow = (a : Int) := by omega
    have hec : L.endCol = (b : Int) := by
      rw [← hjcast] at hshape
      exact hshape.trans hx2.symm
    have hfalse := hemax
    rw [her, hec, hacast, hbcast,
      show (R : Int) - 1 + 1 = (R : Int) from by ring,
      show (C : Int) - dirDc d + dirDc d = (C : Int) from by ring] at hfalse
    rw [hvalid] at hfalse
    exact absurd hfalse (by simp)
  · -- the next cell of L after prev is (R, C), so (R, C) would be visited
    have hnext : ((R : Int), (C : Int)) ∈ cellsOfLine L := by
      rw [mem_cellsOfLine, hdir]
      refine ⟨j + 1, by omega, ?_⟩
      rw [Prod.ext_iff]
      constructor
      · simp only []
        push_cast
        omega
      · simp only []
        rw [cast_succ_mul]
        have : L.startCol + ((j : Int) * dirDc d + dirDc d) =
            (L.startCol + (j : Int) * dirDc d) + dirDc d := by ring
        rw [this, ← hx2, hbcast]
        ring
    exact hnotvis (I4 L hL _ hnext)

theorem run_cells_not_visited (d : DiagDir) (st : TraceState)
    (I1 : ∀ x ∈ st.visited, isValidStitch grid skip x.1 x.2 = true)
    (I3 : ∀ x ∈ st.visited, ∃ L ∈ st.lines, x ∈ cellsOfLine L)
    (I4 : ∀ L ∈ st.lines, ∀ x ∈ cellsOfLine L, x ∈ st.visited)
    (I6 : ∀ L ∈ st.lines, L.direction = d ∧ L.startRow ≤ L.endRow ∧
      L.endCol = L.startCol + (L.endRow - L.startRow) * dirDc d ∧
      isValidStitch grid skip (L.startRow - 1) (L.startCol - dirDc d) = false ∧
      isValidStitch grid skip (L.endRow + 1) (L.endCol + dirDc d) = false)
    (R C : Int)
    (hvalid : isValidStitch grid skip R C = true)
    (hnotvis : (R, C) ∉ st.visited) :
    ∀ i : Nat, i ≤ runLen grid skip (dirDc d) grid.length R C →
      (R + (i : Int), C + (i : Int) * dirDc d) ∉ st.visited := by
  intro i
  induction i with
  | zero =>
      intro _
      simpa using hnotvis
  | succ i ih =>
      intro hle
      by_contra hmem
      have hxival : isValidStitch grid skip (R + (i : Int)) (C + (i : Int) * dirDc d) = true := by
        rcases Nat.eq_zero_or_pos i with h0 | hpos
        · subst h0; simpa using hvalid
        · exact runLen_cells_valid grid skip (dirDc d) grid.length R C i hpos (by omega)
      obtain ⟨L, hL, hxL⟩ := I3 _ hmem
      obtain ⟨hdir, hsrle, hshape, hsmax, hemax⟩ := I6 L hL
      obtain ⟨j, hj, hxeq⟩ := (mem_cellsOfLine L _).mp hxL
      rw [hdir, Prod.ext_iff] at hxeq
      obtain ⟨hx1, hx2⟩ := hxeq
      simp only [] at hx1 hx2
      rcases Nat.eq_zero_or_pos j with hj0 | hjpos
      · -- the covering line starts exactly at cell i+1; its start-maximality
        -- contradicts the validity of cell i
        subst hj0
        simp only [Nat.cast_zero, zero_mul, add_zero] at hx1 hx2
        have hfalse := hsmax
        rw [← hx1, ← hx2,
          show R + ((i : Nat) + 1 : Nat) - 1 = R + (i : Int) from by push_cast; ring,
          show C + ((i : Nat) + 1 : Nat) * dirDc d - dirDc d =
            C + (i : Int) * dirDc d from by rw [cast_succ_mul]; ring] at hfalse
        rw [hxival] at hfalse
        exact absurd hfalse (by simp)
      · -- cell i is the previous cell of the covering line, hence visited,
        -- contradicting the induction hypothesis
        have hprevmem : (R + (i : Int), C + (i : Int) * dirDc d) ∈ cellsOfLine L := by
          rw [mem_cellsOfLine, hdir]
          refine ⟨j - 1, by omega, ?_⟩
          rw [Prod.ext_iff]
          constructor
          · simp only []
            push_cast [hjpos]
            omega
          · simp only []
            rw [cast_pred_mul j (dirDc d) hjpos]
            have he : L.startCol + ((j : Int) * dirDc d - dirDc d) =
                (L.startCol + (j : Int) * dirDc d) - dirDc d := by ring
            rw [he, ← hx2, cast_succ_mul]
            ring
        exact ih (by omega) (I4 L hL _ hprevmem)

theorem traceStep_inv (d : DiagDir) (N R C : Nat) (st : TraceState)
    (hinv : PassInv grid skip d N st)
    (hN : N = R * grid.length + C) (hR : R < grid.length) (hC : C < grid.length) :
    PassInv grid skip d (N + 1) (traceStep grid skip d st (R : Int) (C : Int)) := by
  obtain ⟨I1, I2, I3, I4, I5, I6⟩ := hinv
  unfold traceStep
  by_cases hcond : isValidStitch grid skip (R : Int) (C : Int) = false ∨
      ((R : Int), (C : Int)) ∈ st.visited
  · rw [if_pos hcond]
    refine ⟨I1, ?_, I3, I4, I5, I6⟩
    intro a b ha hb hab hv
    rcases Nat.lt_or_ge (a * grid.length + b) N with h | h
    · exact I2 a b ha hb h hv
    · obtain ⟨rfl, rfl⟩ := rowmajor_unique grid.length a b R C hb hC (by omega)
      rcases hcond with hf | hm
      · rw [hv] at hf
        exact absurd hf (by simp)
      · exact hm
  · rw [if_neg hcond]
    push_neg at hcond
    obtain ⟨hnf, hnotvis⟩ := hcond
    have hvalid : isValidStitch grid skip (R : Int) (C : Int) = true := by
      rw [← Bool.not_eq_false]
      exact hnf
    set k := runLen grid skip (dirDc d) grid.length (R : Int) (C : Int) with hk
    have hklt : k < grid.length := runLen_lt_fuel grid skip (dirDc d) _ _ hvalid
    have hcellval : ∀ i : Nat, i ≤ k →
        isValidStitch grid skip ((R : Int) + i) ((C : Int) + i * dirDc d) = true := by
      intro i hi
      rcases Nat.eq_zero_or_pos i with h0 | hpos
      · subst h0
        simpa using hvalid
      · exact runLen_cells_valid grid skip (dirDc d) grid.length _ _ i hpos hi
    have hnewcells :
        cellsOfLine ⟨(R : Int), (C : Int), (R : Int) + k, (C : Int) + k * dirDc d, d⟩ =
          runCells (R : Int) (C : Int) (dirDc d) k := cellsOfLine_mk d _ _ k
    have hnotvisrun : ∀ x ∈ runCells (R : Int) (C : Int) (dirDc d) k, x ∉ st.visited := by
      intro x hx
      obtain ⟨i, hi, rfl⟩ := (mem_runCells _ _ _ _ _).mp hx
      exact run_cells_not_visited grid skip d st I1 I3 I4 I6 _ _ hvalid hnotvis i hi
    refine ⟨?_, ?_, ?_, ?_, ?_, ?_⟩
    · intro x hx
      rcases List.mem_append.mp hx with h | h
      · exact I1 x h
      · obtain ⟨i, hi, rfl⟩ := (mem_runCells _ _ _ _ _).mp h
        exact hcellval i hi
    · intro a b ha hb hab hv
      rcases Nat.lt_or_ge (a * grid.length + b) N with h | h
      · exact List.mem_append_left _ (I2 a b ha hb h hv)
      · obtain ⟨rfl, rfl⟩ := rowmajor_unique grid.length a b R C hb hC (by omega)
        refine List.mem_append_right _ ?_
        rw [mem_runCells]
        exact ⟨0, by omega, by simp⟩
    · intro x hx
      rcases List.mem_append.mp hx with h | h
      · obtain ⟨L, hL, hxx⟩ := I3 x h
        exact ⟨L, List.mem_append_left _ hL, hxx⟩
      · exact ⟨_, List.mem_append_right _ (List.mem_singleton_self _),
          by rw [hnewcells]; exact h⟩
    · intro L hL x hx
      rcases List.mem_append.mp hL with h | h
      · exact List.mem_append_left _ (I4 L h x hx)
      · rw [List.mem_singleton] at h
        subst h
        rw [hnewcells] at hx
        exact List.mem_append_right _ hx
    · intro x
      rw [List.countP_append]
      by_cases hxnew : x ∈ cellsOfLine
          ⟨(R : Int), (C : Int), (R : Int) + k, (C : Int) + k * dirDc d, d⟩
      · have hz : st.lines.countP (fun L => decide (x ∈ cellsOfLine L)) = 0 := by
          rw [List.countP_eq_zero]
          intro L hL
          simp only [decide_eq_true_eq]
          intro hcov
          have hvis := I4 L hL x hcov
          rw [hnewcells] at hxnew
          exact hnotvisrun x hxnew hvis
        rw [hz]
        simp [List.countP_cons, hxnew]
      · have hz2 : List.countP (fun L => decide (x ∈ cellsOfLine L))
            [⟨(R : Int), (C : Int), (R : Int) + k, (C : Int) + k * dirDc d, d⟩] = 0 := by
          simp [hxnew]
        rw [hz2]
        simpa using I5 x
    · intro L hL
      rcases List.mem_append.mp hL with h | h
      · exact I6 L h
      · rw [List.mem_singleton] at h
        subst h
        refine ⟨rfl, by simp only []; omega, ?_, ?_, ?_⟩
        · simp only []
          rw [show (R : Int) + (k : Int) - (R : Int) = (k : Int) from by ring]
        · simp only []
          exact start_maximal grid skip d N R C st ⟨I1, I2, I3, I4, I5, I6⟩ hN hR hC hvalid hnotvis
        · simp only []
          have hmax := runLen_max grid skip (dirDc d) grid.length (R : Int) (C : Int) hklt
          rw [← hk] at hmax
          rw [show (R : Int) + (k : Int) + 1 = (R : Int) + ((k + 1 : Nat) : Int) from by
              push_cast; ring,
            show (C : Int) + (k : Int) * dirDc d + dirDc d =
              (C : Int) + ((k + 1 : Nat) : Int) * dirDc d from by
              rw [cast_succ_mul]; ring]
          exact hmax

theorem passInv_zero (d : DiagDir) :
    PassInv grid skip d 0 { visited := [], lines := [] } := by
  refine ⟨?_, ?_, ?_, ?_, ?_, ?_⟩ <;> simp [PassInv]

theorem cols_fold_inv (d : DiagDir) (R : Nat) (hR : R < grid.length) :
    ∀ C : Nat, C ≤ grid.length → ∀ st, PassInv grid skip d (R * grid.length) st →
      PassInv grid skip d (R * grid.length + C)
        ((List.range C).foldl
          (fun st2 (col : Nat) => traceStep grid skip d st2 (R : Int) (col : Int)) st) := by
  intro C
  induction C with
  | zero =>
      intro _ st h
      simpa using h
  | succ C ih =>
      intro hC st h
      rw [List.range_succ, List.foldl_append]
      simp only [List.foldl_cons, List.foldl_nil]
      have hmid := ih (by omega) st h
      have hstep := traceStep_inv grid skip d (R * grid.length + C) R C _ hmid rfl hR (by omega)
      rw [show R * grid.length + (C + 1) = R * grid.length + C + 1 from by omega]
      exact hstep

theorem rows_fold_inv (d : DiagDir) : ∀ R : Nat, R ≤ grid.length →
    PassInv grid skip d (R * grid.length)
      ((List.range R).foldl (fun st (row : Nat) => (List.range grid.length).foldl
        (fun st2 (col : Nat) => traceStep grid skip d st2 (row : Int) (col : Int)) st)
        { visited := [], lines := [] }) := by
  intro R
  induction R with
  | zero =>
      intro _
      simpa using passInv_zero grid skip d
  | succ R ih =>
      intro hR
      rw [List.range_succ, List.foldl_append]
      simp only [List.foldl_cons, List.foldl_nil]
      have hmid := ih (by omega)
      have := cols_fold_inv grid skip d R (by omega) grid.length (le_refl _) _ hmid
      rw [show (R + 1) * grid.length = R * grid.length + grid.length from by ring]
      exact this

theorem tracePass_inv (d : DiagDir) :
    PassInv grid skip d (grid.length * grid.length) (tracePass grid skip d) := by
  unfold tracePass
  exact rows_fold_inv grid skip d grid.length (le_refl _)

theorem tracePass_covers (d : DiagDir) (r c : Int)
    (h : isValidStitch grid skip r c = true) :
    (tracePass grid skip d).lines.countP
      (fun L => decide ((r, c) ∈ cellsOfLine L)) = 1 := by
  obtain ⟨I1, I2, I3, I4, I5, I6⟩ := tracePass_inv grid skip d
  obtain ⟨hr0, hrg, hc0, hcg⟩ := valid_bounds grid skip r c h
  have hrc : ((r.toNat : Nat) : Int) = r := Int.toNat_of_nonneg hr0
  have hcc : ((c.toNat : Nat) : Int) = c := Int.toNat_of_nonneg hc0
  have hmem := I2 r.toNat c.toNat (by omega) (by omega)
      (rowmajor_lt grid.length r.toNat c.toNat (by omega) (by omega))
      (by rw [hrc, hcc]; exact h)
  rw [hrc, hcc] at hmem
  obtain ⟨L, hL, hxx⟩ := I3 _ hmem
  have hpos : 0 < (tracePass grid skip d).lines.countP
      (fun L => decide ((r, c) ∈ cellsOfLine L)) := by
    rw [List.countP_pos_iff]
    exact ⟨L, hL, by simpa using hxx⟩
  have := I5 (r, c)
  omega

theorem tracePass_lines_sound (d : DiagDir) (L : DiagonalLine)
    (hL : L ∈ (tracePass grid skip d).lines) :
    L.direction = d ∧
    (∀ x ∈ cellsOfLine L, isValidStitch grid skip x.1 x.2 = true) ∧
    L.startRow ≤ L.endRow ∧
    L.endCol = L.startCol + (L.endRow - L.startRow) * dirDc d ∧
    isValidStitch grid skip (L.startRow - 1) (L.startCol - dirDc d) = false ∧
    isValidStitch grid skip (L.endRow + 1) (L.endCol + dirDc d) = false := by
  obtain ⟨I1, I2, I3, I4, I5, I6⟩ := tracePass_inv grid skip d
  obtain ⟨hdir, h2, h3, h4, h5⟩ := I6 L hL
  exact ⟨hdir, fun x hx => I1 x (I4 L hL x hx), h2, h3, h4, h5⟩

theorem tracePass_single (d : DiagDir) (r c : Int)
    (h : isValidStitch grid skip r c = true)
    (huniq : ∀ a b : Int, isValidStitch grid skip a b = true → a = r ∧ b = c) :
    (tracePass grid skip d).lines = [⟨r, c, r, c, d⟩] := by
  have hall : ∀ L ∈ (tracePass grid skip d).lines, L = ⟨r, c, r, c, d⟩ := by
    intro L hL
    obtain ⟨hdir, hvalidcells, hsrle, hshape, _, _⟩ :=
      tracePass_lines_sound grid skip d L hL
    have hstart : (L.startRow, L.startCol) ∈ cellsOfLine L := by
      rw [mem_cellsOfLine]
      exact ⟨0, by omega, by simp⟩
    have h1 := huniq _ _ (hvalidcells _ hstart)
    simp only [] at h1
    have hlen : ((L.endRow - L.startRow).toNat : Int) = L.endRow - L.startRow :=
      Int.toNat_of_nonneg (by omega)
    have hend : (L.endRow, L.endCol) ∈ cellsOfLine L := by
      rw [mem_cellsOfLine]
      refine ⟨(L.endRow - L.startRow).toNat, le_refl _, ?_⟩
      rw [Prod.ext_iff]
      refine ⟨by simp only []; omega, ?_⟩
      simp only []
      rw [hdir, hlen]
      exact hshape
    have h2 := huniq _ _ (hvalidcells _ hend)
    simp only [] at h2
    rcases L with ⟨sr, sc, er, ec, dir⟩
    simp only [] at h1 h2 hdir
    simp [h1.1, h1.2, h2.1, h2.2, hdir]
  have hcov : ∀ L ∈ (tracePass grid skip d).lines, (r, c) ∈ cellsOfLine L := by
    intro L hL
    rw [hall L hL, mem_cellsOfLine]
    refine ⟨0, by omega, by simp⟩
  have hcount := tracePass_covers grid skip d r c h
  have hlen1 : (tracePass grid skip d).lines.length = 1 := by
    rw [← hcount]
    symm
    rw [List.countP_eq_length]
    intro L hL
    simpa using hcov L hL
  rcases hl : (tracePass grid skip d).lines with _ | ⟨a, t⟩
  · rw [hl] at hlen1
    simp at hlen1
  · rw [hl] at hlen1 hall
    have ht : t = [] := by
      simp only [List.length_cons] at hlen1
      exact List.length_eq_zero.mp (by omega)
    subst ht
    rw [hall a (by simp)]

theorem extract_filter_eq (d : DiagDir) :
    (extractDiagonalLines grid skip).filter (fun L => decide (L.direction = d)) =
      (tracePass grid skip d).lines := by
  unfold extractDiagonalLines
  rw [List.filter_append]
  cases d
  · have h1 : (tracePass grid skip DiagDir.nwse).lines.filter
        (fun L => decide (L.direction = DiagDir.nwse)) =
        (tracePass grid skip DiagDir.nwse).lines := by
      rw [List.filter_eq_self]
      intro L hL
      simp [(tracePass_lines_sound grid skip DiagDir.nwse L hL).1]
    have h2 : (tracePass grid skip DiagDir.nesw).lines.filter
        (fun L => decide (L.direction = DiagDir.nwse)) = [] := by
      rw [List.filter_eq_nil_iff]
      intro L hL
      simp [(tracePass_lines_sound grid skip DiagDir.nesw L hL).1]
    rw [h1, h2, List.append_nil]
  · have h1 : (tracePass grid skip DiagDir.nwse).lines.filter
        (fun L => decide (L.direction = DiagDir.nesw)) = [] := by
      rw [List.filter_eq_nil_iff]
      intro L hL
      simp [(tracePass_lines_sound grid skip DiagDir.nwse L hL).1]
    have h2 : (tracePass grid skip DiagDir.nesw).lines.filter
        (fun L => decide (L.direction = DiagDir.nesw)) =
        (tracePass grid skip DiagDir.nesw).lines := by
      rw [List.filter_eq_self]
      intro L hL
      simp [(tracePass_lines_sound grid skip DiagDir.nesw L hL).1]
    rw [h1, h2, List.nil_append]

end Optimizer

/-- C2: `extractDiagonalLines` is a correct stitch-path optimizer — for
every boolean grid and excluded-cell set, each true, non-excluded,
in-bounds cell is covered by exactly one run of the nw-se family and
exactly one run of the ne-sw family; every produced run consists of valid
cells of its diagonal and is maximal (it cannot be extended by another
true, non-excluded, in-bounds cell at either end); and a grid whose only
valid cell is `(r, c)` yields exactly one length-zero run (start = end)
per family. -/
theorem extractDiagonalLines_optimizer_correct (grid : List (List Bool))
    (skip : List (Nat × Nat)) :
    (∀ d : DiagDir, ∀ r c : Int, isValidStitch grid skip r c = true →
       ((extractDiagonalLines grid skip).filter
          (fun L => decide (L.direction = d))).countP
         (fun L => decide ((r, c) ∈ cellsOfLine L)) = 1) ∧
    (∀ L ∈ extractDiagonalLines grid skip,
       (∀ x ∈ cellsOfLine L, isValidStitch grid skip x.1 x.2 = true) ∧
       L.startRow ≤ L.endRow ∧
       L.endCol = L.startCol + (L.endRow - L.startRow) * dirDc L.direction ∧
       isValidStitch grid skip (L.startRow - 1) (L.startCol - dirDc L.direction) = false ∧
       isValidStitch grid skip (L.endRow + 1) (L.endCol + dirDc L.direction) = false) ∧
    (∀ r c : Int, isValidStitch grid skip r c = true →
       (∀ a b : Int, isValidStitch grid skip a b = true → a = r ∧ b = c) →
       extractDiagonalLines grid skip =
         [⟨r, c, r, c, DiagDir.nwse⟩, ⟨r, c, r, c, DiagDir.nesw⟩]) := by
  refine ⟨?_, ?_, ?_⟩
  · intro d r c h
    rw [extract_filter_eq grid skip d]
    exact tracePass_covers grid skip d r c h
  · intro L hL
    rcases List.mem_append.mp hL with h | h
    · obtain ⟨hdir, hcells, h3, h4, h5, h6⟩ :=
        tracePass_lines_sound grid skip DiagDir.nwse L h
      rw [hdir]
      exact ⟨hcells, h3, h4, h5, h6⟩
    · obtain ⟨hdir, hcells, h3, h4, h5, h6⟩ :=
        tracePass_lines_sound grid skip DiagDir.nesw L h
      rw [hdir]
      exact ⟨hcells, h3, h4, h5, h6⟩
  · intro r c h huniq
    unfold extractDiagonalLines
    rw [tracePass_single grid skip DiagDir.nwse r c h huniq,
      tracePass_single grid skip DiagDir.nesw r c h huniq]
    rfl

/-- Witness for C2 on the 2x2 grid whose only true cell is `(0, 1)`,
with the empty excluded set. -/
theorem extractDiagonalLines_optimizer_correct_witness :
    isValidStitch [[false, true], [false, false]] [] 0 1 = true ∧
    ((extractDiagonalLines [[false, true], [false, false]] []).filter
        (fun L => decide (L.direction = DiagDir.nwse))).countP
      (fun L => decide (((0 : Int), (1 : Int)) ∈ cellsOfLine L)) = 1 ∧
    extractDiagonalLines [[false, true], [false, false]] [] =
      [⟨0, 1, 0, 1, DiagDir.nwse⟩, ⟨0, 1, 0, 1, DiagDir.nesw⟩] := by
  have h := extractDiagonalLines_optimizer_correct [[false, true], [false, false]] []
  refine ⟨by decide, h.1 DiagDir.nwse 0 1 (by decide), ?_⟩
  refine h.2.2 0 1 (by decide) ?_
  intro a b hv
  obtain ⟨h1, h2, h3, h4⟩ := valid_bounds _ _ a b hv
  simp only [List.length_cons, List.length_nil] at h2 h4
  interval_cases a <;> interval_cases b <;> revert hv <;> decide

theorem stitchLinePrim_not_connector (grid : List (List Bool)) (cellSize : ℚ)
    (hc : 0 < cellSize) (L : DiagonalLine)
    (hL : L ∈ extractDiagonalLines grid []) :
    connectorStroke cellSize (stitchLinePrim cellSize L) = false := by
  have hsound : L.startRow ≤ L.endRow ∧
      L.endCol = L.startCol + (L.endRow - L.startRow) * dirDc L.direction := by
    rcases List.mem_append.mp hL with h | h
    · obtain ⟨hdir, _, h3, h4, _, _⟩ := tracePass_lines_sound grid [] DiagDir.nwse L h
      rw [hdir]
      exact ⟨h3, h4⟩
    · obtain ⟨hdir, _, h3, h4, _, _⟩ := tracePass_lines_sound grid [] DiagDir.nesw L h
      rw [hdir]
      exact ⟨h3, h4⟩
  obtain ⟨hsrle, hshape⟩ := hsound
  unfold stitchLinePrim connectorStroke
  cases hd : L.direction
  · -- nw-se: both coordinates strictly increase, so the stroke is not
    -- axis-aligned
    rw [hd] at hshape
    simp only [dirDc, mul_one] at hshape
    simp only [if_pos rfl]
    show decide ((((L.startCol : ℚ) + 1) * cellSize = ((L.endCol : ℚ) + 2) * cellSize ∨
        ((L.startRow : ℚ) + 1) * cellSize = ((L.endRow : ℚ) + 2) * cellSize) ∧
        cellSize < |((L.endCol : ℚ) + 2) * cellSize - ((L.startCol : ℚ) + 1) * cellSize| +
          |((L.endRow : ℚ) + 2) * cellSize - ((L.startRow : ℚ) + 1) * cellSize|) = false
    rw [decide_eq_false_iff_not]
    rintro ⟨hax | hax, -⟩
    · have h2 : (L.startCol : ℚ) + 1 = (L.endCol : ℚ) + 2 :=
        mul_right_cancel₀ (ne_of_gt hc) hax
      have h3 : L.startCol + 1 = L.endCol + 2 := by exact_mod_cast h2
      omega
    · have h2 : (L.startRow : ℚ) + 1 = (L.endRow : ℚ) + 2 :=
        mul_right_cancel₀ (ne_of_gt hc) hax
      have h3 : L.startRow + 1 = L.endRow + 2 := by exact_mod_cast h2
      omega
  · -- ne-sw: the row increases and the column strictly decreases
    rw [hd] at hshape
    simp only [dirDc, mul_neg, mul_one] at hshape
    rw [if_neg (by decide : ¬ (DiagDir.nesw = DiagDir.nwse)),
      if_neg (by decide : ¬ (DiagDir.nesw = DiagDir.nwse))]
    show decide ((((L.startCol : ℚ) + 2) * cellSize = ((L.endCol : ℚ) + 1) * cellSize ∨
        ((L.startRow : ℚ) + 1) * cellSize = ((L.endRow : ℚ) + 2) * cellSize) ∧
        cellSize < |((L.endCol : ℚ) + 1) * cellSize - ((L.startCol : ℚ) + 2) * cellSize| +
          |((L.endRow : ℚ) + 2) * cellSize - ((L.startRow : ℚ) + 1) * cellSize|) = false
    rw [decide_eq_false_iff_not]
    rintro ⟨hax | hax, -⟩
    · have h2 : (L.startCol : ℚ) + 2 = (L.endCol : ℚ) + 1 :=
        mul_right_cancel₀ (ne_of_gt hc) hax
      have h3 : L.startCol + 2 = L.endCol + 1 := by exact_mod_cast h2
      omega
    · have h2 : (L.startRow : ℚ) + 1 = (L.endRow : ℚ) + 2 :=
        mul_right_cancel₀ (ne_of_gt hc) hax
      have h3 : L.startRow + 1 = L.endRow + 2 := by exact_mod_cast h2
      omega

theorem generateSVG_fixed_not_connector (pattern : PatternData) (cellSize : ℚ)
    (hc : 0 < cellSize) :
    ∀ p ∈ (generateSVGPrims pattern cellSize).take 6,
      ¬ connectorStroke cellSize p = true := by
  intro p hp
  unfold generateSVGPrims at hp
  rw [List.take_left' (by rfl)] at hp
  fin_cases hp <;>
    simp only [connectorStroke, decide_eq_true_eq] <;>
    rintro ⟨hax | hax, hlen⟩ <;>
    first
      | linarith
      | (rw [show ∀ a : ℚ, a - a = 0 from fun a => by ring] at hlen
         rw [show cellSize * 0.9 - cellSize * 0.1 = cellSize * (8/10) from by ring] at hlen
         rw [abs_zero, abs_of_pos (by linarith)] at hlen
         linarith)

/-- C8 (amended): the exported vector description contains only the four
corner glyphs and the diagonal stitch strokes — it contains no border
connector stroke (no axis-aligned stroke longer than one cell, which any
stroke linking adjacent corner glyphs along the grid's outer edge would
be), for every pattern record and positive cell size.  (The four border
connectors with gaps near the glyphs exist only in the on-screen pattern
display component, not in the SVG exporter.) -/
theorem generateSVG_no_connector_strokes (pattern : PatternData) (cellSize : ℚ)
    (hc : 0 < cellSize) :
    (generateSVGPrims pattern cellSize).countP (connectorStroke cellSize) = 0 := by
  have hfix := generateSVG_fixed_not_connector pattern cellSize hc
  unfold generateSVGPrims at hfix ⊢
  rw [List.take_left' (by rfl)] at hfix
  rw [List.countP_append]
  have h1 : List.countP (connectorStroke cellSize) _ = 0 := List.countP_eq_zero.mpr hfix
  rw [h1]
  have h2 : List.countP (connectorStroke cellSize)
      ((extractDiagonalLines pattern.grid []).map (stitchLinePrim cellSize)) = 0 := by
    rw [List.countP_eq_zero]
    intro p hp
    obtain ⟨L, hL, rfl⟩ := List.mem_map.mp hp
    rw [stitchLinePrim_not_connector pattern.grid cellSize hc L hL]
    simp
  rw [h2]

/-- C8 counterexample: for the all-false 7x7 pattern the exported vector
description contains zero border connector strokes (axis-aligned strokes
longer than one cell), not the four the claim requires. -/
theorem generateSVG_no_connector_strokes_counterexample :
    (generateSVGPrims
        { grid := List.replicate 7 (List.replicate 7 false),
          id := some ['A','1','B','2','C','3'],
          config := { gridSize := 7, cellSize := 20 } } 20).countP
      (connectorStroke 20) = 0 ∧ (0 : Nat) ≠ 4 :=
  ⟨generateSVG_no_connector_strokes _ 20 (by norm_num), by omega⟩

/-- Witness for C8 (amended) at the all-false 7x7 pattern with cell size 20. -/
theorem generateSVG_no_connector_strokes_witness :
    (0 : ℚ) < 20 ∧
    (generateSVGPrims
        { grid := List.replicate 7 (List.replicate 7 false),
          id := some ['A','1','B','2','C','3'],
          config := { gridSize := 7, cellSize := 20 } } 20).countP
      (connectorStroke 20) = 0 :=
  ⟨by norm_num,
   generateSVG_no_connector_strokes
     { grid := List.replicate 7 (List.replicate 7 false),
       id := some ['A','1','B','2','C','3'],
       config := { gridSize := 7, cellSize := 20 } } 20 (by norm_num)⟩

/-- C7 counterexample: no hard failure is raised on contract violations.
The 7-character identifiers `"A1B2C3X"` and `"A1B2C3Y"` (wrong length,
distinct bit strings) are encoded without error into the *same* 7x7 grid
(the excess bits are silently dropped); the decoder processes a 3x3 grid
(dimensions that do not match the 7x7 scheme) and returns `"******"`
instead of raising; and the optimizer processes a ragged 2x2 grid and
returns an ordinary run list. -/
theorem no_hard_failure_counterexample :
    (['A','1','B','2','C','3','X'] : List Char).length ≠ 6 ∧
    idToBinary ['A','1','B','2','C','3','X'] ≠ idToBinary ['A','1','B','2','C','3','Y'] ∧
    binaryToGrid (idToBinary ['A','1','B','2','C','3','X']) 7 =
      binaryToGrid (idToBinary ['A','1','B','2','C','3','Y']) 7 ∧
    decodePattern [[false, true, false], [false, false, false], [false, false, false]] =
      ['*','*','*','*','*','*'] ∧
    (extractDiagonalLines [[true, true], [true]] []).length = 5 := by decide

/-- C7 (amended): contract violations degrade silently instead of
failing fast — the encode path is total and returns a well-formed 7x7
grid for an identifier of any length (excess bits dropped, missing bits
false), and the decoder is total and returns a 6-character result for a
grid of any dimensions. -/
theorem contract_violations_degrade_silently :
    (∀ id : List Char, (binaryToGrid (idToBinary id) 7).length = 7 ∧
       ∀ row ∈ binaryToGrid (idToBinary id) 7, row.length = 7) ∧
    (∀ grid : List (List Bool), (decodePattern grid).length = 6) := by
  constructor
  · intro id
    rw [binaryToGrid7_eq]
    refine ⟨rfl, ?_⟩
    intro row hrow
    fin_cases hrow <;> rfl
  · intro grid
    exact (decodePattern_length_and_positions grid).1
